import Mathlib

/-!
# Formal model of the OpenRouter relay worker

A shallow embedding of `src/index.ts` of `tooniez/openrouter-relay`: the
JSON values handled by the platform's `JSON.parse` / `JSON.stringify`, the
SSE line relay loop of `processStream`, the outbound payload construction
and control flow of `handleStream`, and the method gate of the exported
`fetch` handler.

Modelling notes (platform built-ins):
* JSON numbers are modelled as integers.  The relay never computes with
  numbers; JavaScript's float parsing/printing is a floating-point concern
  outside the model, so the parser below rejects fraction/exponent
  literals instead of mis-modelling them.
* `JSON.parse` collapses duplicate object keys (last value wins) because
  JavaScript objects cannot hold duplicates; the parser below keeps
  duplicate keys in textual order.  No claim involves duplicate keys.
* JavaScript strings are UTF-16 and may hold lone surrogates; Lean strings
  hold Unicode scalar values, so `\uXXXX` escapes denoting lone surrogates
  are rejected rather than decoded.
-/

/-- JSON values as produced by the platform JSON parser. -/
inductive Json where
  | null
  | bool (b : Bool)
  | num (n : Int)
  | str (s : String)
  | arr (elems : List Json)
  | obj (fields : List (String × Json))

/-- The decimal digit character for `d < 10`. -/
def digitChar (d : Nat) : Char := Char.ofNat (48 + d)

/-- Big-endian decimal digits of a natural number, fuel-driven so that it
reduces definitionally; any `fuel > n` suffices. -/
def natDigitsAux : Nat → Nat → List Char → List Char
  | 0, _, acc => acc
  | fuel + 1, n, acc =>
    if n < 10 then digitChar n :: acc
    else natDigitsAux fuel (n / 10) (digitChar (n % 10) :: acc)

/-- Big-endian decimal digits of a natural number. -/
def natDigits (n : Nat) : List Char := natDigitsAux (n + 1) n []

/-- Decimal rendering of an integer, as `JSON.stringify` prints integral
numbers (`-0` is a float artefact and does not arise for integers). -/
def intDigits : Int → List Char
  | .ofNat n => natDigits n
  | .negSucc m => '-' :: natDigits (m + 1)

/-- Lowercase hexadecimal digit character for `d < 16`. -/
def hexDigitChar (d : Nat) : Char :=
  if d < 10 then Char.ofNat (48 + d) else Char.ofNat (87 + d)

/-- JSON string escaping as performed by `JSON.stringify`: quote, backslash
and control characters are escaped (named escapes for the usual five,
`\u00XX` otherwise); every other character is emitted verbatim. -/
def escChar (c : Char) : List Char :=
  if c = '"' then ['\\', '"']
  else if c = '\\' then ['\\', '\\']
  else if c = '\x08' then ['\\', 'b']
  else if c = '\t' then ['\\', 't']
  else if c = '\n' then ['\\', 'n']
  else if c = '\x0c' then ['\\', 'f']
  else if c = '\x0d' then ['\\', 'r']
  else if c.toNat < 32 then
    '\\' :: 'u' :: '0' :: '0' :: hexDigitChar (c.toNat / 16) :: [hexDigitChar (c.toNat % 16)]
  else [c]

/-- Escape every character of a string body. -/
def escapeChars (s : List Char) : List Char := (s.map escChar).flatten

/-- A JSON string literal: opening quote, escaped body, closing quote. -/
def strLit (s : String) : List Char := '"' :: (escapeChars s.data ++ ['"'])

mutual
/-- `JSON.stringify` (compact form: no added whitespace), on the modelled
values. -/
def stringify : Json → List Char
  | .null => "null".data
  | .bool true => "true".data
  | .bool false => "false".data
  | .num n => intDigits n
  | .str s => strLit s
  | .arr xs => '[' :: (stringifyElems xs ++ [']'])
  | .obj fs => '\x7b' :: (stringifyFields fs ++ ['\x7d'])

/-- Comma-separated serialization of array elements. -/
def stringifyElems : List Json → List Char
  | [] => []
  | [x] => stringify x
  | x :: y :: xs => stringify x ++ ',' :: stringifyElems (y :: xs)

/-- Comma-separated serialization of object members. -/
def stringifyFields : List (String × Json) → List Char
  | [] => []
  | [(k, v)] => strLit k ++ ':' :: stringify v
  | (k, v) :: f :: fs => (strLit k ++ ':' :: stringify v) ++ ',' :: stringifyFields (f :: fs)
end

/-- Decimal digit predicate. -/
def isJsonDigit (c : Char) : Bool := 48 ≤ c.toNat && c.toNat ≤ 57

/-- Numeric value of a decimal digit character. -/
def digitVal (c : Char) : Nat := c.toNat - 48

/-- JSON insignificant whitespace: exactly the four characters of the JSON
grammar (space, tab, line feed, carriage return). -/
def isJsonWs (c : Char) : Bool := c = ' ' || c = '\t' || c = '\n' || c = '\x0d'

/-- Skip insignificant whitespace. -/
def skipWs (cs : List Char) : List Char := cs.dropWhile isJsonWs

/-- Value of a hexadecimal digit character. -/
def hexVal (c : Char) : Option Nat :=
  if 48 ≤ c.toNat && c.toNat ≤ 57 then some (c.toNat - 48)
  else if 97 ≤ c.toNat && c.toNat ≤ 102 then some (c.toNat - 87)
  else if 65 ≤ c.toNat && c.toNat ≤ 70 then some (c.toNat - 55)
  else none

/-- Decoded character for a single-character escape sequence, if any. -/
def simpleEsc (e : Char) : Option Char :=
  if e = '"' then some '"'
  else if e = '\\' then some '\\'
  else if e = '/' then some '/'
  else if e = 'b' then some '\x08'
  else if e = 'f' then some '\x0c'
  else if e = 'n' then some '\n'
  else if e = 'r' then some '\x0d'
  else if e = 't' then some '\t'
  else none

/-- Parse the body of a JSON string literal (after the opening quote),
returning the decoded characters and the input following the closing
quote.  Faithful to `JSON.parse`: raw control characters are rejected, the
standard escapes and `\uXXXX` (with surrogate pairs combined) are decoded;
lone surrogates are rejected (see the modelling notes).  `fuel` only
bounds the recursion; every step consumes input, so the entry point's
`length + 1` always suffices. -/
def parseStringBodyAux : Nat → List Char → Option (List Char × List Char)
  | 0, _ => none
  | fuel + 1, cs =>
    match cs with
    | [] => none
    | c :: cs0 =>
      if c = '"' then some ([], cs0)
      else if c = '\\' then
        match cs0 with
        | [] => none
        | e :: cs1 =>
          match simpleEsc e with
          | some d => (parseStringBodyAux fuel cs1).map (fun r => (d :: r.1, r.2))
          | none =>
            if e = 'u' then
              match cs1 with
              | a :: b :: c2 :: d :: cs2 =>
                match hexVal a, hexVal b, hexVal c2, hexVal d with
                | some va, some vb, some vc, some vd =>
                  let n := va * 4096 + vb * 256 + vc * 16 + vd
                  if n < 55296 ∨ 57343 < n then
                    (parseStringBodyAux fuel cs2).map (fun r => (Char.ofNat n :: r.1, r.2))
                  else if n < 56320 then
                    match cs2 with
                    | x1 :: x2 :: a2 :: b2 :: c3 :: d2 :: cs3 =>
                      if x1 = '\\' ∧ x2 = 'u' then
                        match hexVal a2, hexVal b2, hexVal c3, hexVal d2 with
                        | some wa, some wb, some wc, some wd =>
                          let m := wa * 4096 + wb * 256 + wc * 16 + wd
                          if 56320 ≤ m ∧ m ≤ 57343 then
                            (parseStringBodyAux fuel cs3).map
                              (fun r =>
                                (Char.ofNat ((n - 55296) * 1024 + (m - 56320) + 65536) :: r.1,
                                 r.2))
                          else none
                        | _, _, _, _ => none
                      else none
                    | _ => none
                  else none
                | _, _, _, _ => none
              | _ => none
            else none
      else if c.toNat < 32 then none
      else (parseStringBodyAux fuel cs0).map (fun r => (c :: r.1, r.2))

/-- `parseStringBodyAux` at its always-sufficient fuel. -/
def parseStringBody (cs : List Char) : Option (List Char × List Char) :=
  parseStringBodyAux (cs.length + 1) cs

/-- Greedily consume decimal digits, accumulating their value. -/
def parseDigitsAcc : List Char → Nat → Nat × List Char
  | c :: cs, acc => if isJsonDigit c then parseDigitsAcc cs (acc * 10 + digitVal c) else (acc, c :: cs)
  | [], acc => (acc, [])

/-- Parse a JSON integer numeral (at least one digit, leading-zero rule). -/
def parseNatTok : List Char → Option (Nat × List Char)
  | [] => none
  | c :: cs =>
    if c = '0' then
      match cs with
      | c1 :: _ => if isJsonDigit c1 then none else some (0, cs)
      | [] => some (0, [])
    else if isJsonDigit c then some (parseDigitsAcc cs (digitVal c))
    else none

/-- Parse an optionally signed JSON integer numeral. -/
def parseIntTok : List Char → Option (Int × List Char)
  | [] => none
  | c :: cs =>
    if c = '-' then (parseNatTok cs).map (fun r => (-(r.1 : Int), r.2))
    else (parseNatTok (c :: cs)).map (fun r => ((r.1 : Int), r.2))

/-- Head character would extend a number token into a fraction or exponent
(literals outside the modelled integer fragment; the parser rejects them
rather than mis-modelling float parsing). -/
def numCont : List Char → Bool
  | [] => false
  | c :: _ => c = '.' || c = 'e' || c = 'E'

mutual
/-- JSON value parser (recursive descent, modelling `JSON.parse`).  `fuel`
only bounds recursion depth; the top-level entry point supplies
`length + 1`, which always suffices since every nested call consumes
input. -/
def parseVal : Nat → List Char → Option (Json × List Char)
  | 0, _ => none
  | fuel + 1, cs =>
    match skipWs cs with
    | [] => none
    | c :: cs1 =>
      if c = '\x7b' then
        match skipWs cs1 with
        | [] => none
        | c2 :: cs2 =>
          if c2 = '\x7d' then some (.obj [], cs2)
          else (parseMembers fuel (c2 :: cs2)).map (fun r => (.obj r.1, r.2))
      else if c = '[' then
        match skipWs cs1 with
        | [] => none
        | c2 :: cs2 =>
          if c2 = ']' then some (.arr [], cs2)
          else (parseElems fuel (c2 :: cs2)).map (fun r => (.arr r.1, r.2))
      else if c = '"' then
        (parseStringBody cs1).map (fun r => (.str (String.mk r.1), r.2))
      else if c = 't' then
        match cs1 with
        | k1 :: k2 :: k3 :: cs2 =>
          if k1 = 'r' ∧ k2 = 'u' ∧ k3 = 'e' then some (.bool true, cs2) else none
        | _ => none
      else if c = 'f' then
        match cs1 with
        | k1 :: k2 :: k3 :: k4 :: cs2 =>
          if k1 = 'a' ∧ k2 = 'l' ∧ k3 = 's' ∧ k4 = 'e' then some (.bool false, cs2) else none
        | _ => none
      else if c = 'n' then
        match cs1 with
        | k1 :: k2 :: k3 :: cs2 =>
          if k1 = 'u' ∧ k2 = 'l' ∧ k3 = 'l' then some (.null, cs2) else none
        | _ => none
      else
        match parseIntTok (c :: cs1) with
        | some (n, r) => if numCont r then none else some (.num n, r)
        | none => none

/-- Parse the elements of a non-empty array (after `[` and leading
whitespace), including the closing bracket. -/
def parseElems : Nat → List Char → Option (List Json × List Char)
  | 0, _ => none
  | fuel + 1, cs => do
    let (v, r) ← parseVal fuel cs
    match skipWs r with
    | c2 :: r2 =>
      if c2 = ',' then (parseElems fuel r2).map (fun p => (v :: p.1, p.2))
      else if c2 = ']' then some ([v], r2)
      else none
    | [] => none

/-- Parse the members of a non-empty object (after the opening brace and
leading whitespace), including the closing brace. -/
def parseMembers : Nat → List Char → Option (List (String × Json) × List Char)
  | 0, _ => none
  | fuel + 1, cs =>
    match skipWs cs with
    | c0 :: cs1 =>
      if c0 = '"' then do
        let (k, r) ← parseStringBody cs1
        match skipWs r with
        | c1 :: r2 =>
          if c1 = ':' then do
            let (v, r3) ← parseVal fuel r2
            match skipWs r3 with
            | c2 :: r4 =>
              if c2 = ',' then
                (parseMembers fuel r4).map (fun p => ((String.mk k, v) :: p.1, p.2))
              else if c2 = '\x7d' then some ([(String.mk k, v)], r4)
              else none
            | [] => none
          else none
        | [] => none
      else none
    | [] => none
end

/-- `JSON.parse` on a character list: parse one value, then require only
whitespace to remain. -/
def parseChars (cs : List Char) : Option Json :=
  match parseVal (cs.length + 1) cs with
  | some (v, r) => if skipWs r = [] then some v else none
  | none => none

/-- `JSON.parse`. -/
def Json.parse (s : String) : Option Json := parseChars s.data

/-- JavaScript `String.prototype.trim` whitespace: ASCII whitespace plus
NBSP, BOM and the Unicode line separators (other Unicode `Zs` code points
are omitted; they do not occur in the claims). -/
def isTrimWs (c : Char) : Bool :=
  c = ' ' || c = '\t' || c = '\n' || c = '\x0d' || c = '\x0b' || c = '\x0c' ||
  c = ' ' || c = '﻿' || c = ' ' || c = ' '

/-- `line.trim()`. -/
def trimChars (l : List Char) : List Char :=
  ((l.dropWhile isTrimWs).reverse.dropWhile isTrimWs).reverse

/-- The `while ((lineEnd = buffer.indexOf("\n")) !== -1)` loop of
`processStream`, as one pass: the newline-terminated lines of the buffer
in order, and the remainder after the last newline. -/
def splitLines : List Char → List (List Char) × List Char
  | [] => ([], [])
  | c :: cs =>
    if c = '\n' then ([] :: (splitLines cs).1, (splitLines cs).2)
    else
      match splitLines cs with
      | (l :: ls, r) => ((c :: l) :: ls, r)
      | ([], r) => ([], c :: r)

/-- The SSE data line marker, `"data: "`. -/
def dataPrefix : List Char := "data: ".data

/-- The per-line body of the relay loop: trim, require the `"data: "`
prefix, drop the `[DONE]` sentinel, re-serialize valid JSON into the same
SSE framing, log parse failures.  Returns (event written, diagnostic
logged). -/
def handleLine (rawLine : List Char) : Option String × Option String :=
  let line := trimChars rawLine
  if dataPrefix.isPrefixOf line then
    let data := line.drop 6
    if data = "[DONE]".data then (none, none)
    else
      match parseChars data with
      | some parsed => (some ("data: " ++ String.mk (stringify parsed) ++ "\n\n"), none)
      | none => (none, some "Error parsing SSE data")
  else (none, none)

/-- Mutable state of `processStream`: the carry buffer and what has been
written and logged so far. -/
structure StreamState where
  buffer : List Char
  events : List String
  logs : List String

/-- Process one complete line against the state. -/
def feedLine (st : StreamState) (line : List Char) : StreamState :=
  match handleLine line with
  | (e, l) => { st with events := st.events ++ e.toList, logs := st.logs ++ l.toList }

/-- One iteration of the read loop: append the decoded chunk to the buffer,
then process every complete line in order, leaving the text after the last
newline in the buffer. -/
def feedChunk (st : StreamState) (chunk : String) : StreamState :=
  let buf := st.buffer ++ chunk.data
  let (lines, rest) := splitLines buf
  lines.foldl feedLine { buffer := rest, events := st.events, logs := st.logs }

/-- Final observable behaviour of the background copy task. -/
structure StreamResult where
  events : List String
  logs : List String
  closed : Bool

/-- `processStream` on a scripted sequence of upstream chunks: fold the
read loop over the chunks, then the `done` branch closes the writer.
Reads and writes of the pure model do not fail, so the
`writer.abort` path is not reachable here. -/
def processStream (chunks : List String) : StreamResult :=
  let final := chunks.foldl feedChunk ⟨[], [], []⟩
  { events := final.events, logs := final.logs, closed := true }

/-- The fixed default model identifier (`MODEL` in the source). -/
def MODEL : String := "google/gemini-2.0-pro-exp-02-05:free"

/-- JavaScript truthiness of a JSON value (`NaN` is a float and does not
arise in the integer-number model). -/
def jsTruthy : Json → Bool
  | .null => false
  | .bool b => b
  | .num n => n ≠ 0
  | .str s => s ≠ ""
  | .arr _ => true
  | .obj _ => true

/-- A property of a JavaScript object under construction: `none` models an
`undefined` value (which `JSON.stringify` later drops). -/
abbrev JsProp := String × Option Json

/-- JavaScript property definition (object-literal field or spread step):
an existing key is overwritten in place, a new key is appended. -/
def objAssign (o : List JsProp) (k : String) (v : Option Json) : List JsProp :=
  if o.any (fun e => e.1 = k) then o.map (fun e => if e.1 = k then (k, v) else e)
  else o ++ [(k, v)]

/-- Field lookup on the parsed body (first occurrence; JavaScript
`JSON.parse` never yields duplicate keys). -/
def lookupField (fields : List (String × Json)) (k : String) : Option Json :=
  (fields.find? (fun e => e.1 = k)).map (fun e => e.2)

/-- Lookup in a constructed payload: `none` = key absent, `some none` = key
present with value `undefined`. -/
def payloadLookup (p : List JsProp) (k : String) : Option (Option Json) :=
  (p.find? (fun e => e.1 = k)).map (fun e => e.2)

/-- The payload construction of `handleStream`:
`const { messages, model: requestModel, ...restOfBody } = requestBody;`
`const payload = { model: requestModel || MODEL, messages, stream: true, ...restOfBody };`
The rest pattern excludes `messages` and `model` but not `stream`, and the
spread sits after the literal's explicit fields, so it is applied last. -/
def buildPayload (body : List (String × Json)) : List JsProp :=
  let requestModel := lookupField body "model"
  let messages := lookupField body "messages"
  let modelVal : Json :=
    match requestModel with
    | some v => if jsTruthy v then v else .str MODEL
    | none => .str MODEL
  let rest := body.filter (fun e => e.1 ≠ "messages" && e.1 ≠ "model")
  rest.foldl (fun o e => objAssign o e.1 (some e.2))
    [("model", some modelVal), ("messages", messages), ("stream", some (.bool true))]

/-- Scripted upstream behaviour for one request: the HTTP status, the
error body text (`response.text()`), and the response body as a chunk
sequence (`none` models a missing body). -/
structure UpstreamResponse where
  status : Nat
  errorText : String
  body : Option (List String)

/-- `response.ok` of the Fetch API: status in 200..299. -/
def respOk (status : Nat) : Bool := 200 ≤ status && status ≤ 299

/-- What the handler produces: a plain (status, body) response, an SSE
streaming response, or an uncaught JavaScript exception (destructuring a
`null` body throws outside every `try`). -/
inductive RelayOutcome where
  | plain (status : Nat) (body : String)
  | sse (stream : StreamResult)
  | jsError

/-- Observable result of one request: the outcome plus the side effects
the spec talks about — payloads POSTed upstream, `owrError` diagnostics,
and whether the request body was read. -/
structure RelayResult where
  outcome : RelayOutcome
  upstreamCalls : List (List JsProp)
  logs : List String
  bodyRead : Bool

/-- The `owrError` diagnostic of the missing-credential branch (its first
argument in the source). -/
def missingKeyMsg : String :=
  "Missing OpenRouter API key. Did you forget to set OPENROUTER_API_KEY in .dev.vars (for local dev) or with wrangler secret put OPENROUTER_API_KEY (for production)?"

/-- `handleStream`, with the platform abstracted: `apiKey` is
`env.OPENROUTER_API_KEY` (`none` = unset; the empty string is also falsy),
`rawBody` the request body text, `upstream` the scripted upstream
response.  A primitive (non-object, non-null) parsed body destructures to
no own fields here (JavaScript's string index-spread is not modelled; no
claim touches it). -/
def handleStream (apiKey : Option String) (rawBody : String)
    (upstream : UpstreamResponse) : RelayResult :=
  if apiKey.getD "" = "" then
    { outcome := .plain 401 "Missing API key", upstreamCalls := [],
      logs := [missingKeyMsg], bodyRead := false }
  else
    match Json.parse rawBody with
    | none =>
      { outcome := .plain 400 "Invalid request body", upstreamCalls := [],
        logs := ["Error parsing request body"], bodyRead := true }
    | some .null =>
      { outcome := .jsError, upstreamCalls := [], logs := [], bodyRead := true }
    | some parsed =>
      let fields := match parsed with | .obj fs => fs | _ => []
      let payload := buildPayload fields
      if !respOk upstream.status then
        { outcome := .plain upstream.status ("OpenRouter API error: " ++ upstream.errorText),
          upstreamCalls := [payload], logs := ["OpenRouter API error"], bodyRead := true }
      else
        match upstream.body with
        | none =>
          { outcome := .plain 500 "Error making request to OpenRouter",
            upstreamCalls := [payload],
            logs := ["Error making request to OpenRouter"], bodyRead := true }
        | some chunks =>
          { outcome := .sse (processStream chunks), upstreamCalls := [payload],
            logs := [], bodyRead := true }

/-- The exported `fetch` handler: the method gate runs before anything
else. -/
def workerFetch (method : String) (apiKey : Option String) (rawBody : String)
    (upstream : UpstreamResponse) : RelayResult :=
  if method ≠ "POST" then
    { outcome := .plain 405 "Method not allowed", upstreamCalls := [],
      logs := [], bodyRead := false }
  else handleStream apiKey rawBody upstream

/-- The relay's parse-then-re-serialize step on one SSE data payload. -/
def reserialize (d : String) : Option String :=
  (Json.parse d).map (fun v => String.mk (stringify v))

/-- An SSE data payload in the form the claims quantify over: non-empty,
free of newlines, and not ending in trim-whitespace (so that the `trim`
of its framed line is the line itself). -/
def dataOk (d : String) : Prop :=
  d.data ≠ [] ∧ '\n' ∉ d.data ∧ ∀ c, d.data.getLast? = some c → isTrimWs c = false

/-- The byte text of an upstream SSE stream carrying the given data
payloads, one `data: <payload>\n\n` frame each. -/
def sseChars (ds : List String) : List Char :=
  ds.flatMap (fun d => dataPrefix ++ d.data ++ ['\n', '\n'])

mutual
/-- Structural size of a JSON value: an upper bound on the fuel the parser
needs (each unit of fuel covers one recursive call). -/
def jsize : Json → Nat
  | .arr xs => 1 + jlsize xs
  | .obj fs => 1 + jfsize fs
  | _ => 1

/-- Fuel bound for a list of array elements. -/
def jlsize : List Json → Nat
  | [] => 0
  | x :: xs => 1 + jsize x + jlsize xs

/-- Fuel bound for a list of object members. -/
def jfsize : List (String × Json) → Nat
  | [] => 0
  | kv :: fs => 1 + jsize kv.2 + jfsize fs
end

/-- The text following a serialized value never extends a number token:
its head is not a digit, a decimal point, or an exponent marker. -/
def numStop (cs : List Char) : Prop :=
  ∀ c, cs.head? = some c → isJsonDigit c = false ∧ c ≠ '.' ∧ c ≠ 'e' ∧ c ≠ 'E'

theorem splitLines_no_newline {a : List Char} (h : '\n' ∉ a) : splitLines a = ([], a) := by
  induction a with
  | nil => rfl
  | cons c cs ih =>
    have hc : ¬ c = '\n' := fun e => h (e ▸ List.mem_cons_self c cs)
    have hcs : '\n' ∉ cs := fun m => h (List.mem_cons_of_mem _ m)
    simp [splitLines, hc, ih hcs]

theorem splitLines_append_newline {a : List Char} (b : List Char) (h : '\n' ∉ a) :
    splitLines (a ++ '\n' :: b) = (a :: (splitLines b).1, (splitLines b).2) := by
  induction a with
  | nil => simp [splitLines]
  | cons c cs ih =>
    have hc : ¬ c = '\n' := fun e => h (e ▸ List.mem_cons_self c cs)
    have hcs : '\n' ∉ cs := fun m => h (List.mem_cons_of_mem _ m)
    simp [splitLines, hc, ih hcs]

theorem splitLines_append (x y : List Char) :
    splitLines (x ++ y) =
      ((splitLines x).1 ++ (splitLines ((splitLines x).2 ++ y)).1,
       (splitLines ((splitLines x).2 ++ y)).2) := by
  induction x with
  | nil => simp [splitLines]
  | cons c cs ih =>
    by_cases hc : c = '\n'
    · subst hc
      simp [splitLines, ih]
    · rcases h1 : splitLines cs with ⟨ls, r⟩
      cases ls with
      | nil =>
        rcases h2 : splitLines (r ++ y) with ⟨ls2, r2⟩
        cases ls2 with
        | nil =>
          simp [splitLines, hc, ih, h1, h2]
        | cons l2 ls2t =>
          simp [splitLines, hc, ih, h1, h2]
      | cons l lst =>
        simp [splitLines, hc, ih, h1]

theorem splitLines_leftover_no_newline (l : List Char) : '\n' ∉ (splitLines l).2 := by
  induction l with
  | nil => simp [splitLines]
  | cons c cs ih =>
    by_cases hc : c = '\n'
    · subst hc; simpa [splitLines] using ih
    · rcases h1 : splitLines cs with ⟨ls, r⟩
      cases ls with
      | nil =>
        simp only [splitLines, if_neg hc, h1]
        intro hmem
        rcases List.mem_cons.mp hmem with h | h
        · exact hc h.symm
        · exact ih (by simpa [h1] using h)
      | cons l lst =>
        simp only [splitLines, if_neg hc, h1]
        simpa [h1] using ih

theorem foldl_feedLine (lines : List (List Char)) : ∀ st : StreamState,
    lines.foldl feedLine st =
      ⟨st.buffer, st.events ++ lines.filterMap (fun l => (handleLine l).1),
       st.logs ++ lines.filterMap (fun l => (handleLine l).2)⟩ := by
  induction lines with
  | nil => intro st; simp
  | cons l ls ih =>
    intro st
    rcases h : handleLine l with ⟨e, lg⟩
    simp [List.foldl_cons, ih, feedLine, h, List.filterMap_cons]
    cases e <;> cases lg <;> simp

theorem foldl_feedChunk (cs : List String) : ∀ st : StreamState, '\n' ∉ st.buffer →
    cs.foldl feedChunk st =
      ⟨(splitLines (st.buffer ++ cs.flatMap String.data)).2,
       st.events ++ (splitLines (st.buffer ++ cs.flatMap String.data)).1.filterMap
         (fun l => (handleLine l).1),
       st.logs ++ (splitLines (st.buffer ++ cs.flatMap String.data)).1.filterMap
         (fun l => (handleLine l).2)⟩ := by
  induction cs with
  | nil =>
    intro st h
    simp [splitLines_no_newline h]
  | cons c cs ih =>
    intro st h
    rcases h1 : splitLines (st.buffer ++ c.data) with ⟨ls, r⟩
    have hr : '\n' ∉ r := by
      have := splitLines_leftover_no_newline (st.buffer ++ c.data)
      rwa [h1] at this
    have hstep : feedChunk st c =
        ⟨r, st.events ++ ls.filterMap (fun l => (handleLine l).1),
         st.logs ++ ls.filterMap (fun l => (handleLine l).2)⟩ := by
      simp [feedChunk, h1, foldl_feedLine]
    have hcomp := splitLines_append (st.buffer ++ c.data) (cs.flatMap String.data)
    rw [h1] at hcomp
    rw [List.foldl_cons, hstep,
      ih ⟨r, st.events ++ ls.filterMap (fun l => (handleLine l).1),
        st.logs ++ ls.filterMap (fun l => (handleLine l).2)⟩ hr]
    simp only [List.flatMap_cons, ← List.append_assoc, hcomp]
    simp [List.filterMap_append, List.append_assoc]

theorem processStream_eq (chunks : List String) :
    processStream chunks =
      ⟨(splitLines (chunks.flatMap String.data)).1.filterMap (fun l => (handleLine l).1),
       (splitLines (chunks.flatMap String.data)).1.filterMap (fun l => (handleLine l).2),
       true⟩ := by
  simp [processStream, foldl_feedChunk chunks ⟨[], [], []⟩ (by simp)]

theorem dropWhile_head_not {p : Char → Bool} :
    ∀ {m : List Char}, (∀ c, m.head? = some c → p c = false) → m.dropWhile p = m := by
  intro m h
  cases m with
  | nil => rfl
  | cons a t => simp [List.dropWhile_cons, h a rfl]

theorem trimChars_eq_self {l : List Char}
    (hh : ∀ c, l.head? = some c → isTrimWs c = false)
    (hl : ∀ c, l.getLast? = some c → isTrimWs c = false) : trimChars l = l := by
  unfold trimChars
  rw [dropWhile_head_not hh, dropWhile_head_not (by simpa [List.head?_reverse] using hl),
    List.reverse_reverse]

theorem handleLine_data {d : String} (hd : dataOk d) :
    handleLine (dataPrefix ++ d.data) =
      if d.data = "[DONE]".data then (none, none)
      else
        match parseChars d.data with
        | some v => (some ("data: " ++ String.mk (stringify v) ++ "\n\n"), none)
        | none => (none, some "Error parsing SSE data") := by
  obtain ⟨hne, hnl, hlast⟩ := hd
  have htrim : trimChars (dataPrefix ++ d.data) = dataPrefix ++ d.data := by
    refine trimChars_eq_self (fun c hc => ?_) (fun c hc => ?_)
    · have hd' : (dataPrefix ++ d.data).head? = some 'd' := rfl
      rw [hd'] at hc
      cases hc
      rfl
    · rw [List.getLast?_append_of_ne_nil _ hne] at hc
      exact hlast c hc
  have hpre : dataPrefix.isPrefixOf (dataPrefix ++ d.data) = true := by
    simp [List.isPrefixOf_iff_prefix]
  have hdrop : (dataPrefix ++ d.data).drop 6 = d.data := by
    have h6 : (dataPrefix).length = 6 := rfl
    rw [← h6, List.drop_left]
  simp only [handleLine, htrim, hpre, hdrop, eq_self_iff_true, if_true]

theorem find?_map_overwrite (o : List JsProp) (k k' : String) (v : Option Json) (h : k' ≠ k) :
    List.find? (fun e => e.1 = k) (o.map (fun e => if e.1 = k' then (k', v) else e)) =
      List.find? (fun e => e.1 = k) o := by
  induction o with
  | nil => rfl
  | cons e o ih =>
    by_cases he : e.1 = k'
    · simp [List.find?_cons, he, h, ih]
    · simp [List.find?_cons, he, ih]

theorem payloadLookup_objAssign_ne (o : List JsProp) (k k' : String) (v : Option Json)
    (h : k' ≠ k) : payloadLookup (objAssign o k' v) k = payloadLookup o k := by
  unfold objAssign payloadLookup
  by_cases ha : o.any (fun e => e.1 = k') = true
  · simp only [ha, if_true, find?_map_overwrite o k k' v h]
  · simp only [ha, if_false, List.find?_append]
    have : List.find? (fun e => e.1 = k) [(k', v)] = none := by simp [h]
    simp [this]

theorem payloadLookup_foldl_ne (k : String) (adds : List (String × Json)) :
    ∀ base : List JsProp, (∀ e ∈ adds, e.1 ≠ k) →
      payloadLookup (adds.foldl (fun o e => objAssign o e.1 (some e.2)) base) k =
        payloadLookup base k := by
  induction adds with
  | nil => intro base _; rfl
  | cons e adds ih =>
    intro base h
    rw [List.foldl_cons, ih _ (fun x hx => h x (List.mem_cons_of_mem _ hx)),
      payloadLookup_objAssign_ne _ _ _ _ (h e (List.mem_cons_self _ _))]

/-- Claim C1 (code bug evaluated): the source builds the payload as
`\x7b model, messages, stream: true, ...restOfBody \x7d`, spreading the inbound
fields after the explicit `stream: true`; an inbound `stream: false`
therefore survives into the outbound payload, contradicting the spec's
"streaming flag set to true regardless of the inbound value". -/
theorem stream_flag_not_forced :
    payloadLookup (buildPayload [("messages", Json.arr []), ("stream", Json.bool false)])
        "stream" = some (some (Json.bool false)) := rfl

/-- Claim C2: the outbound payload's `model` is the inbound `model` when
present and non-empty, the fixed default when absent or empty, and the
computed value wins in the merge (the rest-spread cannot contain `model`,
which the destructuring removed). -/
theorem outbound_model_selection (body : List (String × Json)) :
    (lookupField body "model" = none →
      payloadLookup (buildPayload body) "model" = some (some (Json.str MODEL)))
    ∧ (lookupField body "model" = some (Json.str "") →
      payloadLookup (buildPayload body) "model" = some (some (Json.str MODEL)))
    ∧ ∀ s : String, s ≠ "" → lookupField body "model" = some (Json.str s) →
      payloadLookup (buildPayload body) "model" = some (some (Json.str s)) := by
  have hrest : ∀ e ∈ body.filter (fun e => e.1 ≠ "messages" && e.1 ≠ "model"),
      e.1 ≠ "model" := by
    intro e he
    have h2 := (List.mem_filter.mp he).2
    simp only [Bool.and_eq_true, decide_eq_true_eq] at h2
    exact h2.2
  refine ⟨fun h => ?_, fun h => ?_, fun s hs h => ?_⟩ <;>
    simp only [buildPayload] <;>
    rw [payloadLookup_foldl_ne _ _ _ hrest, h] <;>
    simp [payloadLookup, jsTruthy, *]

/-- Witness for C2 at the spec's own example `model: "x"`. -/
theorem outbound_model_selection_witness :
    payloadLookup (buildPayload [("model", Json.str "x")]) "model" =
      some (some (Json.str "x")) :=
  (outbound_model_selection [("model", Json.str "x")]).2.2 "x" (by decide) rfl

/-- Claim C3: on the upstream stream `data: \x7b"id":1\x7d\n\n`,
`data: [DONE]\n\n`, `data: \x7b"id":2\x7d\n\n` the relay forwards exactly the two
re-serialized events, drops the sentinel without ending the stream or
raising an error, and closes cleanly at upstream end. -/
theorem sentinel_dropped_two_events :
    processStream ["data: \x7b\"id\":1\x7d\n\n", "data: [DONE]\n\n", "data: \x7b\"id\":2\x7d\n\n"] =
      ⟨["data: \x7b\"id\":1\x7d\n\n", "data: \x7b\"id\":2\x7d\n\n"], [], true⟩ := rfl

/-- Claim C5: a non-success upstream status is propagated as-is with the
upstream error text in the body, after exactly one upstream call (no
retry). -/
theorem upstream_error_propagated (key : String) (hk : key ≠ "") (rawBody : String)
    (fs : List (String × Json)) (hp : Json.parse rawBody = some (Json.obj fs))
    (u : UpstreamResponse) (hst : respOk u.status = false) :
    handleStream (some key) rawBody u =
      ⟨.plain u.status ("OpenRouter API error: " ++ u.errorText), [buildPayload fs],
       ["OpenRouter API error"], true⟩
    ∧ ∃ p q, "OpenRouter API error: " ++ u.errorText = p ++ u.errorText ++ q := by
  refine ⟨?_, "OpenRouter API error: ", "", by simp⟩
  simp [handleStream, hp, hk, hst]

/-- Witness for C5: upstream 429 with body "rate limited" is returned as
429 with the error text embedded. -/
theorem upstream_error_propagated_witness :
    handleStream (some "k") "\x7b\x7d" ⟨429, "rate limited", none⟩ =
      ⟨.plain 429 "OpenRouter API error: rate limited", [buildPayload []],
       ["OpenRouter API error"], true⟩
    ∧ ∃ p q, "OpenRouter API error: rate limited" = p ++ "rate limited" ++ q :=
  upstream_error_propagated "k" (by decide) "\x7b\x7d" [] rfl ⟨429, "rate limited", none⟩ rfl

/-- Claim C6: with the credential unset (or empty, equally falsy), the
handler returns 401 Missing API key, logs the operator diagnostic, makes
no upstream call, and never reads the body. -/
theorem missing_credential_unauthorized (apiKey : Option String) (rawBody : String)
    (u : UpstreamResponse) (h : apiKey = none ∨ apiKey = some "") :
    handleStream apiKey rawBody u =
      ⟨.plain 401 "Missing API key", [], [missingKeyMsg], false⟩ := by
  rcases h with h | h <;> subst h <;> rfl

/-- Witness for C6 with the variable unset. -/
theorem missing_credential_unauthorized_witness :
    handleStream none "x" ⟨200, "", none⟩ =
      ⟨.plain 401 "Missing API key", [], [missingKeyMsg], false⟩ :=
  missing_credential_unauthorized none "x" ⟨200, "", none⟩ (Or.inl rfl)

/-- Claim C7: any non-POST method is answered 405 Method not allowed
before anything else: the result is a constant — body unread, credential
unexamined, no upstream call, nothing logged. -/
theorem non_post_method_rejected (method : String) (apiKey : Option String)
    (rawBody : String) (u : UpstreamResponse) (h : method ≠ "POST") :
    workerFetch method apiKey rawBody u =
      ⟨.plain 405 "Method not allowed", [], [], false⟩ := by
  simp [workerFetch, h]

/-- Witness for C7 at method GET. -/
theorem non_post_method_rejected_witness :
    workerFetch "GET" (some "k") "\x7b\x7d" ⟨200, "", none⟩ =
      ⟨.plain 405 "Method not allowed", [], [], false⟩ :=
  non_post_method_rejected "GET" (some "k") "\x7b\x7d" ⟨200, "", none⟩ (by decide)

/-- Claim C8: the forwarded events are exactly the in-order image of the
complete lines of the received byte stream — one pass, no reordering and
no batching — and feeding more input only appends further events after
the ones already written. -/
theorem relayed_events_in_receipt_order (chunks : List String) :
    (processStream chunks).events =
      ((splitLines (chunks.flatMap String.data)).1).filterMap (fun l => (handleLine l).1)
    ∧ ∀ more : List String,
      (processStream chunks).events <+: (processStream (chunks ++ more)).events := by
  constructor
  · simp [processStream_eq]
  · intro more
    simp only [processStream_eq]
    have h := splitLines_append (chunks.flatMap String.data) (more.flatMap String.data)
    rw [List.flatMap_append, h]
    simp [List.filterMap_append]

/-- Claim C10: bytes left in the line buffer after the last newline when
the upstream completes are silently discarded — no event, no diagnostic —
and the stream still closes cleanly. -/
theorem trailing_partial_line_discarded (chunks : List String) (t : String)
    (h : '\n' ∉ t.data) :
    processStream (chunks ++ [t]) = processStream chunks ∧
      (processStream (chunks ++ [t])).closed = true := by
  have hleft := splitLines_leftover_no_newline (chunks.flatMap String.data)
  have hnn : '\n' ∉ (splitLines (chunks.flatMap String.data)).2 ++ t.data := by
    intro hm
    rcases List.mem_append.mp hm with hm | hm
    · exact hleft hm
    · exact h hm
  have hsp := splitLines_append (chunks.flatMap String.data) t.data
  rw [splitLines_no_newline hnn] at hsp
  constructor
  · simp [processStream_eq, hsp]
  · simp [processStream_eq]

/-- Witness for C10: a trailing `data: tail` fragment with no newline
changes nothing. -/
theorem trailing_partial_line_discarded_witness :
    '\n' ∉ "data: tail".data ∧
      (processStream (["data: \x7b\x7d\n"] ++ ["data: tail"]) =
          processStream ["data: \x7b\x7d\n"] ∧
        (processStream (["data: \x7b\x7d\n"] ++ ["data: tail"])).closed = true) :=
  ⟨by decide, trailing_partial_line_discarded ["data: \x7b\x7d\n"] "data: tail" (by decide)⟩

theorem splitLines_sse (ds : List String) (h : ∀ d ∈ ds, '\n' ∉ d.data) :
    splitLines (sseChars ds) = (ds.flatMap (fun d => [dataPrefix ++ d.data, []]), []) := by
  induction ds with
  | nil => rfl
  | cons d ds ih =>
    have hd : '\n' ∉ dataPrefix ++ d.data := by
      intro hm
      rcases List.mem_append.mp hm with hm | hm
      · exact absurd hm (by decide)
      · exact h d (List.mem_cons_self _ _) hm
    have hshape : sseChars (d :: ds) =
        (dataPrefix ++ d.data) ++ '\n' :: ('\n' :: sseChars ds) := by
      simp [sseChars, List.flatMap_cons]
    rw [hshape, splitLines_append_newline _ hd]
    have hrest := ih (fun x hx => h x (List.mem_cons_of_mem _ hx))
    simp [splitLines, hrest]

theorem filterMap_sse_lines (f : List Char → Option String) (hnil : f [] = none)
    (ds : List String) :
    (ds.flatMap (fun d => [dataPrefix ++ d.data, []])).filterMap f =
      ds.filterMap (fun d => f (dataPrefix ++ d.data)) := by
  induction ds with
  | nil => rfl
  | cons d ds ih =>
    rcases hf : f (dataPrefix ++ d.data) with _ | e <;>
      simp [List.flatMap_cons, List.filterMap_append, List.filterMap_cons, hnil, hf, ih]

theorem handleLine_good {d : String} (hd : dataOk d) (hs : (Json.parse d).isSome)
    (hne : d ≠ "[DONE]") :
    handleLine (dataPrefix ++ d.data) =
      (some ("data: " ++ String.mk (stringify ((Json.parse d).getD Json.null)) ++ "\n\n"),
       none) := by
  rw [handleLine_data hd]
  have hnd : ¬ d.data = "[DONE]".data := by
    intro hdd
    apply hne
    have hmk : d = String.mk d.data := by cases d; rfl
    rw [hmk, hdd]
  rw [if_neg hnd]
  obtain ⟨v, hv⟩ := Option.isSome_iff_exists.mp hs
  have hv' : parseChars d.data = some v := hv
  rw [hv']
  simp [hv]

theorem handleLine_bad {d : String} (hd : dataOk d) (hp : Json.parse d = none)
    (hne : d ≠ "[DONE]") :
    handleLine (dataPrefix ++ d.data) = (none, some "Error parsing SSE data") := by
  rw [handleLine_data hd]
  have hnd : ¬ d.data = "[DONE]".data := by
    intro hdd
    apply hne
    have hmk : d = String.mk d.data := by cases d; rfl
    rw [hmk, hdd]
  rw [if_neg hnd]
  have hp' : parseChars d.data = none := hp
  rw [hp']

theorem handleLine_good_list (ds : List String)
    (h : ∀ d ∈ ds, dataOk d ∧ (Json.parse d).isSome ∧ d ≠ "[DONE]") :
    ds.filterMap (fun d => (handleLine (dataPrefix ++ d.data)).1) =
      ds.map (fun d =>
        "data: " ++ String.mk (stringify ((Json.parse d).getD Json.null)) ++ "\n\n")
    ∧ ds.filterMap (fun d => (handleLine (dataPrefix ++ d.data)).2) = [] := by
  induction ds with
  | nil => exact ⟨rfl, rfl⟩
  | cons d ds ih =>
    obtain ⟨hd, hs, hne⟩ := h d (List.mem_cons_self _ _)
    have hrest := ih (fun x hx => h x (List.mem_cons_of_mem _ hx))
    simp [List.filterMap_cons, handleLine_good hd hs hne, hrest.1, hrest.2]

/-- Claim C4: a malformed `data: ` line interleaved with valid lines is
logged and dropped without aborting the stream; every surrounding valid
line is still forwarded, in order. -/
theorem malformed_line_logged_and_dropped (ds1 ds2 : List String) (bad : String)
    (h1 : ∀ d ∈ ds1, dataOk d ∧ (Json.parse d).isSome ∧ d ≠ "[DONE]")
    (h2 : ∀ d ∈ ds2, dataOk d ∧ (Json.parse d).isSome ∧ d ≠ "[DONE]")
    (hb : dataOk bad) (hbp : Json.parse bad = none) (hbd : bad ≠ "[DONE]") :
    processStream [String.mk (sseChars (ds1 ++ [bad] ++ ds2))] =
      ⟨(ds1 ++ ds2).map (fun d =>
          "data: " ++ String.mk (stringify ((Json.parse d).getD Json.null)) ++ "\n\n"),
       ["Error parsing SSE data"], true⟩ := by
  have hnl : ∀ d ∈ ds1 ++ [bad] ++ ds2, '\n' ∉ d.data := by
    intro d hd
    rcases List.mem_append.mp hd with hd | hd
    · rcases List.mem_append.mp hd with hd | hd
      · exact (h1 d hd).1.2.1
      · rcases List.mem_singleton.mp hd with rfl
        exact hb.2.1
    · exact (h2 d hd).1.2.1
  have hflat : [String.mk (sseChars (ds1 ++ [bad] ++ ds2))].flatMap String.data =
      sseChars (ds1 ++ [bad] ++ ds2) := by
    simp [List.flatMap_cons]
  rw [processStream_eq, hflat, splitLines_sse _ hnl]
  have hev1 := handleLine_good_list ds1 h1
  have hev2 := handleLine_good_list ds2 h2
  simp only [filterMap_sse_lines (fun l => (handleLine l).1) rfl,
    filterMap_sse_lines (fun l => (handleLine l).2) rfl, List.filterMap_append,
    List.filterMap_cons, handleLine_bad hb hbp hbd, hev1.1, hev1.2, hev2.1, hev2.2]
  simp

/-- Witness for C4 at the spec's example: `not-json` between two valid
events. -/
theorem malformed_line_logged_and_dropped_witness :
    processStream [String.mk (sseChars (["\x7b\"id\":1\x7d"] ++ ["not-json"] ++ ["\x7b\"id\":2\x7d"]))] =
      ⟨(["\x7b\"id\":1\x7d"] ++ ["\x7b\"id\":2\x7d"]).map (fun d =>
          "data: " ++ String.mk (stringify ((Json.parse d).getD Json.null)) ++ "\n\n"),
       ["Error parsing SSE data"], true⟩ :=
  malformed_line_logged_and_dropped ["\x7b\"id\":1\x7d"] ["\x7b\"id\":2\x7d"] "not-json"
    (by intro d hd; rcases List.mem_singleton.mp hd with rfl
        exact ⟨⟨by decide, by decide, by decide⟩, by rw [show Json.parse "\x7b\"id\":1\x7d" =
          some (Json.obj [("id", Json.num 1)]) from rfl]; rfl, by decide⟩)
    (by intro d hd; rcases List.mem_singleton.mp hd with rfl
        exact ⟨⟨by decide, by decide, by decide⟩, by rw [show Json.parse "\x7b\"id\":2\x7d" =
          some (Json.obj [("id", Json.num 2)]) from rfl]; rfl, by decide⟩)
    ⟨by decide, by decide, by decide⟩ rfl (by decide)

theorem json_ind (P : Json → Prop) (hnull : P .null) (hbool : ∀ b, P (.bool b))
    (hnum : ∀ n, P (.num n)) (hstr : ∀ s, P (.str s))
    (harr : ∀ xs, (∀ x ∈ xs, P x) → P (.arr xs))
    (hobj : ∀ fs, (∀ kv ∈ fs, P kv.2) → P (.obj fs)) : ∀ v, P v := by
  have key : ∀ n, ∀ v : Json, sizeOf v ≤ n → P v := by
    intro n
    induction n with
    | zero => intro v hv; cases v <;> simp at hv
    | succ n ih =>
      intro v hv
      cases v with
      | null => exact hnull
      | bool b => exact hbool b
      | num m => exact hnum m
      | str s => exact hstr s
      | arr xs =>
        refine harr xs (fun x hx => ih x ?_)
        have h1 := List.sizeOf_lt_of_mem hx
        simp at hv
        omega
      | obj fs =>
        refine hobj fs (fun kv hkv => ih kv.2 ?_)
        have h1 := List.sizeOf_lt_of_mem hkv
        have h2 : sizeOf kv.2 < sizeOf kv := by
          rcases kv with ⟨k, v⟩
          simp
        simp at hv
        omega
  exact fun v => key (sizeOf v) v le_rfl

theorem char_ne_of_toNat_ne {c d : Char} (h : c.toNat ≠ d.toNat) : c ≠ d :=
  fun e => h (by rw [e])

theorem isJsonDigit_toNat {c : Char} (h : isJsonDigit c = true) :
    48 ≤ c.toNat ∧ c.toNat ≤ 57 := by
  simpa [isJsonDigit] using h

theorem digit_ne {c d : Char} (h : isJsonDigit c = true)
    (hd : d.toNat < 48 ∨ 57 < d.toNat) : c ≠ d := by
  obtain ⟨h1, h2⟩ := isJsonDigit_toNat h
  exact char_ne_of_toNat_ne (by omega)

theorem digit_not_ws {c : Char} (h : isJsonDigit c = true) : isJsonWs c = false := by
  have h1 : c ≠ ' ' := digit_ne h (by decide)
  have h2 : c ≠ '\t' := digit_ne h (by decide)
  have h3 : c ≠ '\n' := digit_ne h (by decide)
  have h4 : c ≠ '\x0d' := digit_ne h (by decide)
  simp [isJsonWs, h1, h2, h3, h4]

theorem digitChar_isDigit {d : Nat} (h : d < 10) : isJsonDigit (digitChar d) = true := by
  interval_cases d <;> decide

theorem digitVal_digitChar {d : Nat} (h : d < 10) : digitVal (digitChar d) = d := by
  interval_cases d <;> decide

theorem digitChar_ne_zero {d : Nat} (h : d < 10) (h0 : d ≠ 0) : ¬ digitChar d = '0' := by
  interval_cases d
  · exact absurd rfl h0
  all_goals decide

theorem natDigitsAux_pos : ∀ fuel n acc, 0 < n → n < fuel →
    natDigitsAux fuel n acc = ((Nat.digits 10 n).map digitChar).reverse ++ acc := by
  intro fuel
  induction fuel with
  | zero => intro n acc h1 h2; omega
  | succ f ih =>
    intro n acc h1 h2
    rw [natDigitsAux]
    by_cases h10 : n < 10
    · rw [if_pos h10, Nat.digits_def' (by norm_num) h1]
      have hq : n / 10 = 0 := by omega
      rw [hq]
      simp [Nat.mod_eq_of_lt h10]
    · rw [if_neg h10, ih (n / 10) _ (by omega) (by omega),
        Nat.digits_def' (by norm_num) h1]
      simp

theorem natDigits_pos {n : Nat} (h : 0 < n) :
    natDigits n = ((Nat.digits 10 n).map digitChar).reverse := by
  have := natDigitsAux_pos (n + 1) n [] h (by omega)
  simpa [natDigits] using this

theorem foldl_digits (l : List Nat) : ∀ acc : Nat,
    l.foldl (fun a d => a * 10 + d) acc = acc * 10 ^ l.length + Nat.ofDigits 10 l.reverse := by
  induction l with
  | nil => intro acc; simp
  | cons d l ih =>
    intro acc
    rw [List.foldl_cons, ih, List.reverse_cons]
    have happ : (Nat.ofDigits 10 (l.reverse ++ [d]) : Nat) =
        Nat.ofDigits 10 l.reverse + 10 ^ l.reverse.length * Nat.ofDigits 10 [d] := by
      exact_mod_cast Nat.ofDigits_append
    rw [happ]
    simp [Nat.ofDigits_singleton]
    ring

theorem digits_foldl (n : Nat) :
    ((Nat.digits 10 n).reverse).foldl (fun a d => a * 10 + d) 0 = n := by
  rw [foldl_digits]
  simp [Nat.ofDigits_digits]

theorem parseDigitsAcc_spec : ∀ (l : List Nat) (rest : List Char) (acc : Nat),
    (∀ d ∈ l, d < 10) → (∀ c, rest.head? = some c → isJsonDigit c = false) →
    parseDigitsAcc (l.map digitChar ++ rest) acc =
      (l.foldl (fun a d => a * 10 + d) acc, rest) := by
  intro l
  induction l with
  | nil =>
    intro rest acc _ hrest
    cases rest with
    | nil => rfl
    | cons c cs => simp [parseDigitsAcc, hrest c rfl]
  | cons d l ih =>
    intro rest acc hl hrest
    have hd : d < 10 := hl d (List.mem_cons_self _ _)
    simp only [List.map_cons, List.cons_append, parseDigitsAcc, digitChar_isDigit hd, if_true,
      digitVal_digitChar hd, List.foldl_cons]
    exact ih rest _ (fun x hx => hl x (List.mem_cons_of_mem _ hx)) hrest

theorem natDigits_head_digit (m : Nat) :
    ∃ c cs, natDigits m = c :: cs ∧ isJsonDigit c = true := by
  rcases Nat.eq_zero_or_pos m with rfl | hpos
  · exact ⟨'0', [], rfl, by decide⟩
  · have hd := natDigits_pos hpos
    have hdig : Nat.digits 10 m ≠ [] := Nat.digits_ne_nil_iff_ne_zero.mpr (by omega)
    rw [← List.map_reverse] at hd
    cases hrev : (Nat.digits 10 m).reverse with
    | nil => exact absurd (by simpa using congrArg List.reverse hrev) hdig
    | cons a ds =>
      refine ⟨digitChar a, ds.map digitChar, by rw [hd, hrev]; rfl, ?_⟩
      have ha : a ∈ Nat.digits 10 m := by
        have : a ∈ (Nat.digits 10 m).reverse := by rw [hrev]; exact List.mem_cons_self _ _
        simpa using this
      exact digitChar_isDigit (Nat.digits_lt_base (by norm_num) ha)

theorem parseNatTok_natDigits (n : Nat) (rest : List Char)
    (hrest : ∀ c, rest.head? = some c → isJsonDigit c = false) :
    parseNatTok (natDigits n ++ rest) = some (n, rest) := by
  rcases Nat.eq_zero_or_pos n with rfl | hpos
  · have h0 : natDigits 0 = ['0'] := rfl
    rw [h0]
    cases rest with
    | nil => rfl
    | cons c cs => simp [parseNatTok, hrest c rfl]
  · have hd := natDigits_pos hpos
    have hdig : Nat.digits 10 n ≠ [] := Nat.digits_ne_nil_iff_ne_zero.mpr (by omega)
    rw [← List.map_reverse] at hd
    obtain ⟨m, ds, hms⟩ : ∃ m ds, (Nat.digits 10 n).reverse = m :: ds := by
      cases hrev : (Nat.digits 10 n).reverse with
      | nil => exact absurd (by simpa using congrArg List.reverse hrev) hdig
      | cons m ds => exact ⟨m, ds, rfl⟩
    have hmem : ∀ d ∈ m :: ds, d < 10 := by
      rw [← hms]
      intro d hdm
      exact Nat.digits_lt_base (by norm_num) (by simpa using hdm)
    have hm10 : m < 10 := hmem m (List.mem_cons_self _ _)
    have hm0 : m ≠ 0 := by
      have h1 : (Nat.digits 10 n).getLast? = some m := by
        rw [← List.head?_reverse, hms]; rfl
      have h2 := List.getLast?_eq_getLast (Nat.digits 10 n) hdig
      rw [h1] at h2
      have h3 := Nat.getLast_digit_ne_zero 10 (show n ≠ 0 by omega)
      intro hm
      apply h3
      rw [← Option.some_inj.mp h2, hm]
    rw [hd, hms, List.map_cons]
    simp only [List.cons_append, parseNatTok, if_neg (digitChar_ne_zero hm10 hm0),
      digitChar_isDigit hm10, if_true, digitVal_digitChar hm10]
    rw [parseDigitsAcc_spec ds rest m (fun x hx => hmem x (List.mem_cons_of_mem _ hx)) hrest]
    have hval : ds.foldl (fun a d => a * 10 + d) m = n := by
      have := digits_foldl n
      rw [hms, List.foldl_cons] at this
      simpa using this
    rw [hval]

theorem parseIntTok_intDigits (n : Int) (rest : List Char)
    (hrest : ∀ c, rest.head? = some c → isJsonDigit c = false) :
    parseIntTok (intDigits n ++ rest) = some (n, rest) := by
  cases n with
  | ofNat m =>
    obtain ⟨c, cs, hcons, hdig⟩ := natDigits_head_digit m
    have hnotminus : ¬ c = '-' := digit_ne hdig (by decide)
    rw [show intDigits (Int.ofNat m) = natDigits m from rfl, hcons]
    simp only [List.cons_append, parseIntTok, if_neg hnotminus]
    rw [← List.cons_append, ← hcons, parseNatTok_natDigits m rest hrest]
    rfl
  | negSucc m =>
    rw [show intDigits (Int.negSucc m) = '-' :: natDigits (m + 1) from rfl]
    simp only [List.cons_append, parseIntTok, if_pos rfl]
    rw [parseNatTok_natDigits (m + 1) rest hrest]
    simp [Int.negSucc_eq]

theorem hexVal_hexDigitChar {d : Nat} (h : d < 16) : hexVal (hexDigitChar d) = some d := by
  interval_cases d <;> decide

theorem parseStringBodyAux_close (fuel : Nat) (cs : List Char) :
    parseStringBodyAux (fuel + 1) ('"' :: cs) = some ([], cs) := by
  simp [parseStringBodyAux]

theorem parseStringBodyAux_simple {e dc : Char} (h : simpleEsc e = some dc)
    (fuel : Nat) (cs : List Char) :
    parseStringBodyAux (fuel + 1) ('\\' :: e :: cs) =
      (parseStringBodyAux fuel cs).map (fun r => (dc :: r.1, r.2)) := by
  simp [parseStringBodyAux, h]

theorem parseStringBodyAux_raw {c : Char} (h1 : ¬ c = '"') (h2 : ¬ c = '\\')
    (h3 : ¬ c.toNat < 32) (fuel : Nat) (cs : List Char) :
    parseStringBodyAux (fuel + 1) (c :: cs) =
      (parseStringBodyAux fuel cs).map (fun r => (c :: r.1, r.2)) := by
  simp [parseStringBodyAux, h1, h2, h3]

theorem parseStringBodyAux_hex {c : Char} (h8 : c.toNat < 32) (fuel : Nat) (cs : List Char) :
    parseStringBodyAux (fuel + 1) ('\\' :: 'u' :: '0' :: '0' :: hexDigitChar (c.toNat / 16) ::
        hexDigitChar (c.toNat % 16) :: cs) =
      (parseStringBodyAux fuel cs).map (fun r => (c :: r.1, r.2)) := by
  have hdiv : c.toNat / 16 < 16 := by omega
  have hmod : c.toNat % 16 < 16 := by omega
  have harith : c.toNat / 16 * 16 + c.toNat % 16 = c.toNat := by omega
  simp [parseStringBodyAux, simpleEsc, hexVal_hexDigitChar hdiv, hexVal_hexDigitChar hmod,
    show hexVal '0' = some 0 from rfl, harith, show c.toNat < 55296 by omega,
    Char.ofNat_toNat]

theorem escapeChars_cons (c : Char) (s : List Char) :
    escapeChars (c :: s) = escChar c ++ escapeChars s := by
  simp [escapeChars]

theorem parseStringBodyAux_escape : ∀ (s : List Char) (fuel : Nat) (rest : List Char),
    s.length < fuel → parseStringBodyAux fuel (escapeChars s ++ '"' :: rest) = some (s, rest) := by
  intro s
  induction s with
  | nil =>
    intro fuel rest h
    obtain ⟨f, rfl⟩ : ∃ g, fuel = g + 1 := ⟨fuel - 1, by omega⟩
    rw [show escapeChars [] = [] from rfl, List.nil_append, parseStringBodyAux_close]
  | cons c s ih =>
    intro fuel rest h
    obtain ⟨f, rfl⟩ : ∃ g, fuel = g + 1 := ⟨fuel - 1, by omega⟩
    have hf : s.length < f := by
      simp only [List.length_cons] at h
      omega
    rw [escapeChars_cons, List.append_assoc]
    by_cases h1 : c = '"'
    · subst h1
      simp only [show escChar '"' = ['\\', '"'] from rfl, List.cons_append, List.nil_append]
      rw [parseStringBodyAux_simple (show simpleEsc '"' = some '"' from rfl), ih f rest hf]
      rfl
    · by_cases h2 : c = '\\'
      · subst h2
        simp only [show escChar '\\' = ['\\', '\\'] from rfl, List.cons_append, List.nil_append]
        rw [parseStringBodyAux_simple (show simpleEsc '\\' = some '\\' from rfl), ih f rest hf]
        rfl
      · by_cases h3 : c = '\x08'
        · subst h3
          simp only [show escChar '\x08' = ['\\', 'b'] from rfl, List.cons_append,
            List.nil_append]
          rw [parseStringBodyAux_simple (show simpleEsc 'b' = some '\x08' from rfl),
            ih f rest hf]
          rfl
        · by_cases h4 : c = '\t'
          · subst h4
            simp only [show escChar '\t' = ['\\', 't'] from rfl, List.cons_append,
              List.nil_append]
            rw [parseStringBodyAux_simple (show simpleEsc 't' = some '\t' from rfl),
              ih f rest hf]
            rfl
          · by_cases h5 : c = '\n'
            · subst h5
              simp only [show escChar '\n' = ['\\', 'n'] from rfl, List.cons_append,
                List.nil_append]
              rw [parseStringBodyAux_simple (show simpleEsc 'n' = some '\n' from rfl),
                ih f rest hf]
              rfl
            · by_cases h6 : c = '\x0c'
              · subst h6
                simp only [show escChar '\x0c' = ['\\', 'f'] from rfl, List.cons_append,
                  List.nil_append]
                rw [parseStringBodyAux_simple (show simpleEsc 'f' = some '\x0c' from rfl),
                  ih f rest hf]
                rfl
              · by_cases h7 : c = '\x0d'
                · subst h7
                  simp only [show escChar '\x0d' = ['\\', 'r'] from rfl, List.cons_append,
                    List.nil_append]
                  rw [parseStringBodyAux_simple (show simpleEsc 'r' = some '\x0d' from rfl),
                    ih f rest hf]
                  rfl
                · by_cases h8 : c.toNat < 32
                  · have hesc : escChar c = ['\\', 'u', '0', '0',
                        hexDigitChar (c.toNat / 16), hexDigitChar (c.toNat % 16)] := by
                      simp [escChar, h1, h2, h3, h4, h5, h6, h7, h8]
                    simp only [hesc, List.cons_append, List.nil_append]
                    rw [parseStringBodyAux_hex h8, ih f rest hf]
                    rfl
                  · have hesc : escChar c = [c] := by
                      simp [escChar, h1, h2, h3, h4, h5, h6, h7, h8]
                    simp only [hesc, List.cons_append, List.nil_append]
                    rw [parseStringBodyAux_raw h1 h2 h8, ih f rest hf]
                    rfl

theorem escapeChars_length (s : List Char) : s.length ≤ (escapeChars s).length := by
  induction s with
  | nil => simp [escapeChars]
  | cons c s ih =>
    rw [escapeChars_cons]
    have h1 : 1 ≤ (escChar c).length := by
      unfold escChar
      split_ifs <;> simp
    simp only [List.length_append, List.length_cons]
    omega

theorem parseStringBody_escape (s rest : List Char) :
    parseStringBody (escapeChars s ++ '"' :: rest) = some (s, rest) := by
  apply parseStringBodyAux_escape
  have := escapeChars_length s
  simp only [List.length_append, List.length_cons]
  omega

theorem mkData_eq (s : String) : String.mk s.data = s := by cases s; rfl

theorem skipWs_cons (c : Char) (cs : List Char) :
    skipWs (c :: cs) = if isJsonWs c then skipWs cs else c :: cs := by
  simp [skipWs, List.dropWhile_cons]

theorem skipWs_cons_not_ws {c : Char} (h : isJsonWs c = false) (cs : List Char) :
    skipWs (c :: cs) = c :: cs := by
  simp [skipWs_cons, h]

theorem numStop_cons {c : Char} (h1 : isJsonDigit c = false) (h2 : ¬ c = '.')
    (h3 : ¬ c = 'e') (h4 : ¬ c = 'E') (cs : List Char) : numStop (c :: cs) := by
  intro x hx
  cases hx
  exact ⟨h1, h2, h3, h4⟩

theorem numCont_eq_false {cs : List Char} (h : numStop cs) : numCont cs = false := by
  cases cs with
  | nil => rfl
  | cons c cs =>
    obtain ⟨_, h2, h3, h4⟩ := h c rfl
    simp [numCont, h2, h3, h4]

theorem stringify_head (v : Json) : ∃ c tl, stringify v = c :: tl ∧ isJsonWs c = false ∧
    ¬ c = ']' ∧ ¬ c = '\x7d' := by
  have pack : ∀ c : Char, ∀ tl : List Char, isJsonWs c = false → ¬ c = ']' → ¬ c = '\x7d' →
      ∃ c2 tl2, (c :: tl : List Char) = c2 :: tl2 ∧ isJsonWs c2 = false ∧
        ¬ c2 = ']' ∧ ¬ c2 = '\x7d' :=
    fun c tl p1 p2 p3 => ⟨c, tl, rfl, p1, p2, p3⟩
  cases v with
  | num n =>
    cases n with
    | ofNat m =>
      obtain ⟨c, cs, hcons, hdig⟩ := natDigits_head_digit m
      rw [show stringify (Json.num (Int.ofNat m)) = natDigits m from rfl, hcons]
      exact pack c cs (digit_not_ws hdig) (digit_ne hdig (by decide))
        (digit_ne hdig (by decide))
    | negSucc m => exact pack '-' _ (by decide) (by decide) (by decide)
  | bool b => cases b <;> [skip; skip] <;> exact pack _ _ (by decide) (by decide) (by decide)
  | null => exact pack 'n' _ (by decide) (by decide) (by decide)
  | str s => exact pack '"' _ (by decide) (by decide) (by decide)
  | arr xs => exact pack '[' _ (by decide) (by decide) (by decide)
  | obj fs => exact pack '\x7b' _ (by decide) (by decide) (by decide)

theorem parseElems_stringify (xs : List Json)
    (hIH : ∀ x ∈ xs, ∀ fuel rest, jsize x ≤ fuel → numStop rest →
      parseVal fuel (stringify x ++ rest) = some (x, rest)) :
    ∀ fuel rest, xs ≠ [] → jlsize xs ≤ fuel →
      parseElems fuel (stringifyElems xs ++ ']' :: rest) = some (xs, rest) := by
  induction xs with
  | nil => intro fuel rest hne _; exact absurd rfl hne
  | cons x xs ih =>
    intro fuel rest _ hsz
    have hsz' : 1 + jsize x + jlsize xs ≤ fuel := by
      simpa [jlsize] using hsz
    obtain ⟨f, rfl⟩ : ∃ g, fuel = g + 1 := ⟨fuel - 1, by omega⟩
    have hx := hIH x (List.mem_cons_self _ _)
    cases xs with
    | nil =>
      rw [show stringifyElems [x] = stringify x from rfl]
      simp only [parseElems]
      rw [hx f (']' :: rest) (by omega)
        (numStop_cons (by decide) (by decide) (by decide) (by decide) rest)]
      simp only [Option.bind_eq_bind, Option.some_bind]
      rw [skipWs_cons_not_ws (by decide)]
      simp
    | cons y ys =>
      rw [show stringifyElems (x :: y :: ys) = stringify x ++ ',' :: stringifyElems (y :: ys)
        from rfl]
      rw [List.append_assoc, List.cons_append]
      simp only [parseElems]
      rw [hx f _ (by omega)
        (numStop_cons (by decide) (by decide) (by decide) (by decide) _)]
      simp only [Option.bind_eq_bind, Option.some_bind]
      rw [skipWs_cons_not_ws (by decide)]
      have hys : jlsize (y :: ys) ≤ f := by
        simp only [jlsize] at hsz' ⊢
        omega
      have hmain := ih (fun z hz => hIH z (List.mem_cons_of_mem _ hz)) f rest (by simp) hys
      simp [hmain]

theorem parseMembers_stringify (fs : List (String × Json))
    (hIH : ∀ kv ∈ fs, ∀ fuel rest, jsize kv.2 ≤ fuel → numStop rest →
      parseVal fuel (stringify kv.2 ++ rest) = some (kv.2, rest)) :
    ∀ fuel rest, fs ≠ [] → jfsize fs ≤ fuel →
      parseMembers fuel (stringifyFields fs ++ '\x7d' :: rest) = some (fs, rest) := by
  induction fs with
  | nil => intro _ _ hne _; exact absurd rfl hne
  | cons kv fs ih =>
    obtain ⟨k, v⟩ := kv
    intro fuel rest _ hsz
    have hsz' : 1 + jsize v + jfsize fs ≤ fuel := by
      simpa [jfsize] using hsz
    obtain ⟨f, rfl⟩ : ∃ g, fuel = g + 1 := ⟨fuel - 1, by omega⟩
    have hv := hIH (k, v) (List.mem_cons_self _ _)
    cases fs with
    | nil =>
      rw [show stringifyFields [(k, v)] = strLit k ++ ':' :: stringify v from rfl,
        show strLit k = '"' :: (escapeChars k.data ++ ['"']) from rfl]
      simp only [List.cons_append, List.append_assoc, List.singleton_append, List.nil_append]
      simp only [parseMembers]
      rw [skipWs_cons_not_ws (by decide)]
      simp only [show (('"' : Char) = '"') = True by simp, if_true]
      rw [parseStringBody_escape]
      simp only [Option.bind_eq_bind, Option.some_bind]
      rw [skipWs_cons_not_ws (by decide)]
      simp only [show ((':' : Char) = ':') = True by simp, if_true]
      rw [hv f _ (by show jsize v ≤ f; omega)
        (numStop_cons (by decide) (by decide) (by decide) (by decide) _)]
      simp only [Option.bind_eq_bind, Option.some_bind]
      rw [skipWs_cons_not_ws (by decide)]
      simp [mkData_eq]
    | cons kv2 fs2 =>
      rw [show stringifyFields ((k, v) :: kv2 :: fs2) =
          (strLit k ++ ':' :: stringify v) ++ ',' :: stringifyFields (kv2 :: fs2) from rfl,
        show strLit k = '"' :: (escapeChars k.data ++ ['"']) from rfl]
      simp only [List.cons_append, List.append_assoc, List.singleton_append, List.nil_append]
      simp only [parseMembers]
      rw [skipWs_cons_not_ws (by decide)]
      simp only [show (('"' : Char) = '"') = True by simp, if_true]
      rw [parseStringBody_escape]
      simp only [Option.bind_eq_bind, Option.some_bind]
      rw [skipWs_cons_not_ws (by decide)]
      simp only [show ((':' : Char) = ':') = True by simp, if_true]
      rw [hv f _ (by show jsize v ≤ f; omega)
        (numStop_cons (by decide) (by decide) (by decide) (by decide) _)]
      simp only [Option.bind_eq_bind, Option.some_bind]
      rw [skipWs_cons_not_ws (by decide)]
      have hfs2 : jfsize (kv2 :: fs2) ≤ f := by
        simp only [jfsize] at hsz' ⊢
        omega
      have hmain := ih (fun z hz => hIH z (List.mem_cons_of_mem _ hz)) f rest (by simp) hfs2
      simp [hmain, mkData_eq]

theorem parseVal_stringify : ∀ v : Json, ∀ fuel rest, jsize v ≤ fuel → numStop rest →
    parseVal fuel (stringify v ++ rest) = some (v, rest) := by
  refine json_ind (fun v => ∀ fuel rest, jsize v ≤ fuel → numStop rest →
    parseVal fuel (stringify v ++ rest) = some (v, rest)) ?_ ?_ ?_ ?_ ?_ ?_
  · intro fuel rest hf _
    obtain ⟨f, rfl⟩ : ∃ g, fuel = g + 1 := ⟨fuel - 1, by simp [jsize] at hf; omega⟩
    simp only [show stringify Json.null = ['n', 'u', 'l', 'l'] from rfl, List.cons_append,
      List.nil_append]
    simp only [parseVal]
    rw [skipWs_cons_not_ws (by decide)]
    simp
  · intro b fuel rest hf _
    obtain ⟨f, rfl⟩ : ∃ g, fuel = g + 1 := ⟨fuel - 1, by simp [jsize] at hf; omega⟩
    cases b with
    | false =>
      simp only [show stringify (Json.bool false) = ['f', 'a', 'l', 's', 'e'] from rfl,
        List.cons_append, List.nil_append]
      simp only [parseVal]
      rw [skipWs_cons_not_ws (by decide)]
      simp
    | true =>
      simp only [show stringify (Json.bool true) = ['t', 'r', 'u', 'e'] from rfl,
        List.cons_append, List.nil_append]
      simp only [parseVal]
      rw [skipWs_cons_not_ws (by decide)]
      simp
  · intro n fuel rest hf hrest
    obtain ⟨f, rfl⟩ : ∃ g, fuel = g + 1 := ⟨fuel - 1, by simp [jsize] at hf; omega⟩
    have hstop : ∀ c, rest.head? = some c → isJsonDigit c = false := fun c hc => (hrest c hc).1
    have hnum := parseIntTok_intDigits n rest hstop
    have hnc := numCont_eq_false hrest
    cases n with
    | ofNat m =>
      obtain ⟨c, cs, hcons, hdig⟩ := natDigits_head_digit m
      have hne1 : ¬ c = '\x7b' := digit_ne hdig (by decide)
      have hne2 : ¬ c = '[' := digit_ne hdig (by decide)
      have hne3 : ¬ c = '"' := digit_ne hdig (by decide)
      have hne4 : ¬ c = 't' := digit_ne hdig (by decide)
      have hne5 : ¬ c = 'f' := digit_ne hdig (by decide)
      have hne6 : ¬ c = 'n' := digit_ne hdig (by decide)
      rw [show stringify (Json.num (Int.ofNat m)) = natDigits m from rfl, hcons,
        List.cons_append]
      simp only [parseVal]
      rw [skipWs_cons_not_ws (digit_not_ws hdig)]
      simp only [if_neg hne1, if_neg hne2, if_neg hne3, if_neg hne4, if_neg hne5, if_neg hne6]
      rw [← List.cons_append, ← hcons,
        show natDigits m = intDigits (Int.ofNat m) from rfl, hnum]
      simp [hnc]
    | negSucc m =>
      rw [show stringify (Json.num (Int.negSucc m)) = '-' :: natDigits (m + 1) from rfl,
        List.cons_append]
      simp only [parseVal]
      rw [skipWs_cons_not_ws (by decide)]
      simp only [if_neg (show ¬ ('-' : Char) = '\x7b' by decide),
        if_neg (show ¬ ('-' : Char) = '[' by decide),
        if_neg (show ¬ ('-' : Char) = '"' by decide),
        if_neg (show ¬ ('-' : Char) = 't' by decide),
        if_neg (show ¬ ('-' : Char) = 'f' by decide),
        if_neg (show ¬ ('-' : Char) = 'n' by decide)]
      rw [show ('-' :: (natDigits (m + 1) ++ rest)) = intDigits (Int.negSucc m) ++ rest
        from rfl, hnum]
      simp [hnc]
  · intro s fuel rest hf _
    obtain ⟨f, rfl⟩ : ∃ g, fuel = g + 1 := ⟨fuel - 1, by simp [jsize] at hf; omega⟩
    rw [show stringify (Json.str s) = '"' :: (escapeChars s.data ++ ['"']) from rfl,
      List.cons_append]
    simp only [parseVal]
    rw [skipWs_cons_not_ws (by decide)]
    simp only [show (('"' : Char) = '\x7b') = False by simp,
      show (('"' : Char) = '[') = False by simp,
      show (('"' : Char) = '"') = True by simp, if_false, if_true]
    rw [List.append_assoc, List.singleton_append, parseStringBody_escape]
    simp [mkData_eq]
  · intro xs hIH fuel rest hf _
    have hsz : 1 + jlsize xs ≤ fuel := by simpa [jsize] using hf
    obtain ⟨f, rfl⟩ : ∃ g, fuel = g + 1 := ⟨fuel - 1, by omega⟩
    rw [show stringify (Json.arr xs) = '[' :: (stringifyElems xs ++ [']']) from rfl,
      List.cons_append, List.append_assoc, List.singleton_append]
    simp only [parseVal]
    rw [skipWs_cons_not_ws (by decide)]
    simp only [show (('[' : Char) = '\x7b') = False by simp,
      show (('[' : Char) = '[') = True by simp, if_false, if_true]
    cases xs with
    | nil =>
      simp only [show stringifyElems [] = ([] : List Char) from rfl, List.nil_append]
      rw [skipWs_cons_not_ws (by decide)]
      simp
    | cons x xs2 =>
      obtain ⟨c, tl, hhead, hws, hrb, hbb⟩ := stringify_head x
      obtain ⟨tl2, hse⟩ : ∃ tl2, stringifyElems (x :: xs2) = c :: tl2 := by
        cases xs2 with
        | nil => exact ⟨tl, by rw [show stringifyElems [x] = stringify x from rfl, hhead]⟩
        | cons y ys =>
          refine ⟨tl ++ ',' :: stringifyElems (y :: ys), ?_⟩
          rw [show stringifyElems (x :: y :: ys) =
            stringify x ++ ',' :: stringifyElems (y :: ys) from rfl, hhead, List.cons_append]
      rw [hse, List.cons_append, skipWs_cons_not_ws hws]
      simp only [if_neg hrb]
      rw [← List.cons_append, ← hse,
        parseElems_stringify (x :: xs2) hIH f rest (by simp) (by omega)]
      rfl
  · intro fs hIH fuel rest hf _
    have hsz : 1 + jfsize fs ≤ fuel := by simpa [jsize] using hf
    obtain ⟨f, rfl⟩ : ∃ g, fuel = g + 1 := ⟨fuel - 1, by omega⟩
    rw [show stringify (Json.obj fs) = '\x7b' :: (stringifyFields fs ++ ['\x7d']) from rfl,
      List.cons_append, List.append_assoc, List.singleton_append]
    simp only [parseVal]
    rw [skipWs_cons_not_ws (by decide)]
    simp only [show (('\x7b' : Char) = '\x7b') = True by simp, if_true]
    cases fs with
    | nil =>
      simp only [show stringifyFields [] = ([] : List Char) from rfl, List.nil_append]
      rw [skipWs_cons_not_ws (by decide)]
      simp
    | cons kv fs2 =>
      obtain ⟨k, v⟩ := kv
      obtain ⟨tl2, hsf⟩ : ∃ tl2, stringifyFields ((k, v) :: fs2) = '"' :: tl2 := by
        cases fs2 with
        | nil =>
          exact ⟨(escapeChars k.data ++ ['"']) ++ ':' :: stringify v,
            by rw [show stringifyFields [(k, v)] = strLit k ++ ':' :: stringify v from rfl,
              show strLit k = '"' :: (escapeChars k.data ++ ['"']) from rfl, List.cons_append]⟩
        | cons kv2 fs3 =>
          refine ⟨((escapeChars k.data ++ ['"']) ++ ':' :: stringify v) ++
            ',' :: stringifyFields (kv2 :: fs3), ?_⟩
          rw [show stringifyFields ((k, v) :: kv2 :: fs3) =
              (strLit k ++ ':' :: stringify v) ++ ',' :: stringifyFields (kv2 :: fs3) from rfl,
            show strLit k = '"' :: (escapeChars k.data ++ ['"']) from rfl, List.cons_append,
            List.cons_append]
      rw [hsf, List.cons_append, skipWs_cons_not_ws (by decide)]
      simp only [show (('"' : Char) = '\x7d') = False by simp, if_false]
      rw [← List.cons_append, ← hsf,
        parseMembers_stringify ((k, v) :: fs2) hIH f rest (by simp) (by omega)]
      rfl

theorem jsize_le_length : ∀ v : Json, jsize v ≤ (stringify v).length := by
  refine json_ind _ ?_ ?_ ?_ ?_ ?_ ?_
  · simp [jsize, stringify]
  · intro b; cases b <;> simp [jsize, stringify]
  · intro n
    cases n with
    | ofNat m =>
      obtain ⟨c, cs, hcons, _⟩ := natDigits_head_digit m
      rw [show stringify (Json.num (Int.ofNat m)) = natDigits m from rfl, hcons]
      simp [jsize]
    | negSucc m =>
      rw [show stringify (Json.num (Int.negSucc m)) = '-' :: natDigits (m + 1) from rfl]
      simp [jsize]
  · intro s
    rw [show stringify (Json.str s) = '"' :: (escapeChars s.data ++ ['"']) from rfl]
    simp [jsize]
  · intro xs hIH
    have key : ∀ ys : List Json, (∀ x ∈ ys, jsize x ≤ (stringify x).length) →
        jlsize ys ≤ 1 + (stringifyElems ys).length := by
      intro ys
      induction ys with
      | nil => intro _; simp [jlsize]
      | cons x ys ih2 =>
        intro h
        have hx := h x (List.mem_cons_self _ _)
        cases ys with
        | nil =>
          rw [show stringifyElems [x] = stringify x from rfl]
          simp only [jlsize]
          omega
        | cons y ys2 =>
          have hrest := ih2 (fun z hz => h z (List.mem_cons_of_mem _ hz))
          rw [show stringifyElems (x :: y :: ys2) =
            stringify x ++ ',' :: stringifyElems (y :: ys2) from rfl]
          simp only [jlsize, List.length_append, List.length_cons] at hrest ⊢
          omega
    have h1 := key xs hIH
    rw [show stringify (Json.arr xs) = '[' :: (stringifyElems xs ++ [']']) from rfl]
    simp only [jsize, List.length_cons, List.length_append]
    simp at h1 ⊢
    omega
  · intro fs hIH
    have key : ∀ ys : List (String × Json), (∀ kv ∈ ys, jsize kv.2 ≤ (stringify kv.2).length) →
        jfsize ys ≤ 1 + (stringifyFields ys).length := by
      intro ys
      induction ys with
      | nil => intro _; simp [jfsize]
      | cons kv ys ih2 =>
        intro h
        obtain ⟨k, v⟩ := kv
        have hx := h (k, v) (List.mem_cons_self _ _)
        cases ys with
        | nil =>
          rw [show stringifyFields [(k, v)] = strLit k ++ ':' :: stringify v from rfl]
          simp only [jfsize, List.length_append, List.length_cons] at hx ⊢
          omega
        | cons kv2 ys2 =>
          have hrest := ih2 (fun z hz => h z (List.mem_cons_of_mem _ hz))
          rw [show stringifyFields ((k, v) :: kv2 :: ys2) =
            (strLit k ++ ':' :: stringify v) ++ ',' :: stringifyFields (kv2 :: ys2) from rfl]
          simp only [jfsize, List.length_append, List.length_cons] at hrest hx ⊢
          omega
    have h1 := key fs hIH
    rw [show stringify (Json.obj fs) = '\x7b' :: (stringifyFields fs ++ ['\x7d']) from rfl]
    simp only [jsize, List.length_cons, List.length_append]
    simp at h1 ⊢
    omega

theorem parse_stringify (v : Json) : parseChars (stringify v) = some v := by
  unfold parseChars
  have h := parseVal_stringify v ((stringify v).length + 1) []
    (by have := jsize_le_length v; omega) (fun c hc => by simp at hc)
  rw [List.append_nil] at h
  rw [h]
  simp [skipWs]

/-- Claim C9 (counterexample): the parse-then-re-serialize step is not
byte-for-byte the identity even with no semantic change and key order
preserved: `\x7b"a": 1\x7d` re-serializes to `\x7b"a":1\x7d` (whitespace is
normalized away) while re-parsing to the same value. -/
theorem reserialize_not_byte_identical :
    reserialize "\x7b\"a\": 1\x7d" = some "\x7b\"a\":1\x7d" ∧
      ("\x7b\"a\":1\x7d" : String) ≠ "\x7b\"a\": 1\x7d" ∧
      Json.parse "\x7b\"a\":1\x7d" = Json.parse "\x7b\"a\": 1\x7d" :=
  ⟨rfl, by decide, rfl⟩

/-- Claim C9 (amended): the parse-then-re-serialize step yields
semantically identical JSON — the output re-parses to exactly the parsed
value, with key order preserved as emitted by the parser — and the step is
idempotent: its output is a fixed point, re-serializing byte-for-byte
identically.  Byte-for-byte identity with the input holds only when the
input is already in the serializer's canonical form. -/
theorem reserialize_semantic_identity (d : String) (v : Json)
    (h : Json.parse d = some v) :
    reserialize d = some (String.mk (stringify v)) ∧
      Json.parse (String.mk (stringify v)) = some v ∧
      reserialize (String.mk (stringify v)) = some (String.mk (stringify v)) := by
  have hrt : Json.parse (String.mk (stringify v)) = some v := by
    show parseChars (String.mk (stringify v)).data = some v
    exact parse_stringify v
  refine ⟨?_, hrt, ?_⟩
  · simp [reserialize, h]
  · simp [reserialize, hrt]

/-- Witness for C9 at the counterexample's own input. -/
theorem reserialize_semantic_identity_witness :
    reserialize "\x7b\"a\": 1\x7d" =
        some (String.mk (stringify (Json.obj [("a", Json.num 1)]))) ∧
      Json.parse (String.mk (stringify (Json.obj [("a", Json.num 1)]))) =
        some (Json.obj [("a", Json.num 1)]) ∧
      reserialize (String.mk (stringify (Json.obj [("a", Json.num 1)]))) =
        some (String.mk (stringify (Json.obj [("a", Json.num 1)]))) :=
  reserialize_semantic_identity "\x7b\"a\": 1\x7d" (Json.obj [("a", Json.num 1)]) rfl
